import Mathlib

/-!
Verification of the attribution-based metric evaluation engine of the
Studio service (`apps/api/app/evaluation.py`).

The engine is embedded shallowly over exact rationals (`ℚ`): the Python
code's IEEE-754 doubles become rationals, numpy arrays become `List ℚ`,
and a pandas `DataFrame` becomes an ordered association list of named
columns.  The two irrational-valued numeric primitives the engine touches
(`np.sqrt`, used by the `"lime"` transform and inside `np.std` /
`np.corrcoef`, and the exponent-1.25 power used by `"treeshap"`) are not
rational-valued, so they are passed to the embedded engine as explicit
function parameters `s` (square root) and `p` (power 1.25); theorems
quantify over them, assuming only the order-theoretic facts true of the
real functions where a proof needs them.

Division by zero follows Lean's `ℚ` convention (`x / 0 = 0`); the places
where numpy would instead produce `NaN` (means of empty arrays) are
fenced off by row-count hypotheses in the theorems that would otherwise
be affected.
-/

/-- A pandas-style data frame: an ordered list of named numeric columns.
Column order defines the feature index. -/
structure DataFrame where
  cols : List (String × List ℚ)
deriving DecidableEq

/-- Row count of a data frame (length of its first column; 0 when there
are no columns). -/
def dfRows (X : DataFrame) : ℕ := (X.cols.headD ("", [])).2.length

/-- Linear coefficients exposed by a model (`model.coef_`): numpy arrays
of dimension one or two. -/
inductive Coefs
  | dim1 (v : List ℚ)
  | dim2 (rows : List (List ℚ))

/-- A trained model, an opaque object polymorphic over a capability set:
optional per-feature importance scores, optional linear coefficients,
optional per-class probabilities, and point predictions. -/
structure Model where
  feature_importances_ : Option (List ℚ)
  coef_ : Option Coefs
  predict_proba : Option (DataFrame → List (List ℚ))
  predict : DataFrame → List ℚ

/-- Arithmetic mean of a list (`np.mean`); `0` on the empty list where
numpy yields `NaN`. -/
def qmean (l : List ℚ) : ℚ := l.sum / (l.length : ℚ)

/-- Maximum entry of a list (`np.max` along an axis); `0` on the empty
list, unreachable on contract-satisfying inputs. -/
def listMax : List ℚ → ℚ
  | [] => 0
  | h :: t => t.foldl max h

/-- Embedding of `_predict_signal`: per-row max class probability for
classification models exposing `predict_proba`, otherwise the model's
point predictions. -/
def _predict_signal (m : Model) (X : DataFrame) (task_type : String) : List ℚ :=
  if task_type = "classification" then
    match m.predict_proba with
    | some f => (f X).map listMax
    | none => m.predict X
  else m.predict X

/-- Mean of absolute values down each column of a two-dimensional array
(`np.mean(np.abs(coef), axis=0)`); the column count is the length of the
first row, as for a rectangular numpy array. -/
def meanAbsAxis0 (rows : List (List ℚ)) : List ℚ :=
  (List.range (rows.headD []).length).map
    (fun j => (rows.map (fun r => |r.getD j 0|)).sum / (rows.length : ℚ))

/-- The raw attribution vector of `_attributions` before length
reconciliation: importance scores first, else absolute linear
coefficients (averaged across rows when two-dimensional), else all
ones. -/
def raw_values (m : Model) (feature_names : List String) : List ℚ :=
  match m.feature_importances_ with
  | some v => v
  | none =>
    match m.coef_ with
    | some (Coefs.dim2 rows) => meanAbsAxis0 rows
    | some (Coefs.dim1 v) => v.map (fun x => |x|)
    | none => List.replicate feature_names.length 1

/-- Embedding of `np.resize(values, n)`: truncate when longer, repeat the
existing values cyclically when shorter.  On the empty vector `np.resize`
fills with zeros, which the `getD` default reproduces (`i % 0 = i` is out
of range). -/
def npResize (v : List ℚ) (n : ℕ) : List ℚ :=
  (List.range n).map (fun i => v.getD (i % v.length) 0)

/-- The normalization step of `_attributions` (lines 29-31 of
`evaluation.py`): elementwise absolute value, then divide by the sum when
it is strictly positive, else a uniform distribution over `n` slots. -/
def normalize_attr (values : List ℚ) (n : ℕ) : List ℚ :=
  let va := values.map (fun x => |x|)
  let total := va.sum
  if 0 < total then va.map (fun x => x / total)
  else List.replicate n (1 / (n : ℚ))

/-- Embedding of `_attributions`: raw vector from the model's
capabilities, length-reconciled via `np.resize` when its length differs
from the feature count, then normalized into a distribution. -/
def _attributions (m : Model) (feature_names : List String) : List ℚ :=
  let values := raw_values m feature_names
  let values :=
    if values.length ≠ feature_names.length then npResize values feature_names.length
    else values
  normalize_attr values feature_names.length

/-- The explainer transform and renormalization (lines 40-46 of
`evaluation.py`): `"lime"` maps the square root `s` over the vector,
`"treeshap"` maps the power-1.25 function `p`, anything else is the
identity; the result is divided by its own sum. -/
def effective_attr (s p : ℚ → ℚ) (explainer : String) (base_attr : List ℚ) : List ℚ :=
  let attr :=
    if explainer = "lime" then base_attr.map s
    else if explainer = "treeshap" then base_attr.map p
    else base_attr
  attr.map (fun x => x / attr.sum)

/-- Stable insertion into an ascending-by-attribution list of indices: a
later original index goes strictly before `j` only when its value is
strictly smaller, so ties keep original-index order. -/
def insertIdx (v : List ℚ) (i : ℕ) : List ℕ → List ℕ
  | [] => [i]
  | j :: rest => if v.getD i 0 < v.getD j 0 then i :: j :: rest else j :: insertIdx v i rest

/-- Embedding of `np.argsort(attr)`: indices sorted ascending by value
with a stable sort (numpy uses insertion sort on arrays this small). -/
def argsort (v : List ℚ) : List ℕ :=
  (List.range v.length).foldl (fun acc i => insertIdx v i acc) []

/-- Embedding of `np.argsort(attr)[::-1][:k]` (line 49 of
`evaluation.py`): reverse the ascending order and keep the first `k`
indices. -/
def topIdx (attr : List ℚ) (k : ℕ) : List ℕ := ((argsort attr).reverse).take k

/-- Per-column means of a data frame (`X.mean(numeric_only=True)`; every
embedded column is numeric). -/
def dfMeans (X : DataFrame) : List (String × ℚ) :=
  X.cols.map (fun c => (c.1, qmean c.2))

/-- Lookup in the means series with default (`means.get(col, 0.0)`). -/
def meansGet (ms : List (String × ℚ)) (c : String) : ℚ :=
  ((ms.find? (fun q => q.1 == c)).map Prod.snd).getD 0

/-- Scalar column assignment `df[col] = q`: every column named `col` has
all of its entries replaced by `q`.  Returns a new frame; the mutable
view of the same operation lives in `swrite` below. -/
def dfSetCol (d : DataFrame) (c : String) (q : ℚ) : DataFrame :=
  ⟨d.cols.map (fun col => if col.1 = c then (col.1, List.replicate col.2.length q) else col)⟩

/-- Population variance, `np.std(l) ** 2`. -/
def variance (l : List ℚ) : ℚ := qmean (l.map (fun x => (x - qmean l) ^ 2))

/-- Embedding of `np.std`: the square-root parameter `s` applied to the
population variance. -/
def npStd (s : ℚ → ℚ) (l : List ℚ) : ℚ := s (variance l)

/-- Embedding of `np.corrcoef(x, y)[0, 1]`: the mean-centered covariance
normalized by the product of the standard deviations (the `1/n` factors
of numpy's covariance matrix cancel in the ratio). -/
def pearson (s : ℚ → ℚ) (x y : List ℚ) : ℚ :=
  let μx := qmean x
  let μy := qmean y
  let cov := qmean (x.zipWith (fun a b => (a - μx) * (b - μy)) y)
  cov / (s (variance x) * s (variance y))

/-- The per-feature impact vector of the faithfulness-correlation branch
(lines 74-80 of `evaluation.py`): for each column, the mean absolute
change in signal when that single column is replaced by its mean. -/
def feature_impacts (m : Model) (task_type : String) (X : DataFrame) : List ℚ :=
  let means := dfMeans X
  let base_signal := _predict_signal m X task_type
  (X.cols.map Prod.fst).map (fun col =>
    qmean (base_signal.zipWith (fun a b => |a - b|)
      (_predict_signal m (dfSetCol X col (meansGet means col)) task_type)))

/-- Embedding of `compute_metric_score`.  `s` and `p` are the square-root
and power-1.25 primitives (see the file header); everything else follows
`evaluation.py` line by line over immutable values — the heap-accurate
version that models pandas mutation is `compute_metric_score_ref`
below. -/
def compute_metric_score (s p : ℚ → ℚ) (m : Model) (task_type : String)
    (X : DataFrame) (explainer metric : String) : ℚ :=
  let feature_names := X.cols.map Prod.fst
  if feature_names.isEmpty then 0
  else
    let base_attr := _attributions m feature_names
    let attr := effective_attr s p explainer base_attr
    let k := max 1 (min 3 feature_names.length)
    let top_idx := topIdx attr k
    let means := dfMeans X
    let base_signal := _predict_signal m X task_type
    let X_removed := top_idx.foldl (fun d idx =>
      dfSetCol d (feature_names.getD idx "") (meansGet means (feature_names.getD idx ""))) X
    let removed_signal := _predict_signal m X_removed task_type
    let X_kept := feature_names.enum.foldl (fun d ic =>
      if ic.1 ∈ top_idx then d else dfSetCol d ic.2 (meansGet means ic.2)) X
    let kept_signal := _predict_signal m X_kept task_type
    let drop := qmean (base_signal.zipWith (fun a b => max (a - b) 0) removed_signal)
    let retain_gap := qmean (base_signal.zipWith (fun a b => |a - b|) kept_signal)
    let score :=
      if metric = "comprehensiveness" then drop
      else if metric = "sufficiency" then 1 - retain_gap
      else if metric = "faithfulness_correlation" then
        let impacts := feature_impacts m task_type X
        if npStd s impacts = 0 ∨ npStd s attr = 0 then 0
        else (pearson s attr impacts + 1) / 2
      else qmean attr
    min (max score 0) 1

/-- A heap of data frames.  Python locals holding pandas frames are
references into this store: `X.copy()` allocates a fresh cell at the end,
`df[col] = q` mutates the cell the variable refers to, and every use of a
variable reads its cell at that moment. -/
abbrev Store : Type := List DataFrame

/-- Dereference a cell (out-of-range reads give the empty frame). -/
def sread (σ : Store) (r : ℕ) : DataFrame := List.getD σ r ⟨[]⟩

/-- Length of the store. -/
def slen (σ : Store) : ℕ := List.length σ

/-- In-place scalar column assignment on the cell `r` (`df[col] = q` on
the frame the reference `r` points to). -/
def swrite (σ : Store) (r : ℕ) (c : String) (q : ℚ) : Store :=
  List.set σ r (dfSetCol (sread σ r) c q)

/-- Allocation (`X.copy()`): append a copy of the value and refer to it
by the old length. -/
def salloc (σ : Store) (d : DataFrame) : Store := σ ++ [d]

/-- The faithfulness-correlation loop of `evaluation.py` (lines 74-79)
over the store: each iteration allocates `Xi = X.copy()` (reading `X`'s
cell at that moment), mutates the fresh cell's one column, and records
the mean absolute signal change. -/
def impacts_loop (m : Model) (task_type : String) (xr : ℕ)
    (means : List (String × ℚ)) (base_signal : List ℚ) :
    List String → Store → List ℚ × Store
  | [], σ => ([], σ)
  | col :: rest, σ =>
    let ir := slen σ
    let σ1 := salloc σ (sread σ xr)
    let σ2 := swrite σ1 ir col (meansGet means col)
    let v := qmean (base_signal.zipWith (fun a b => |a - b|)
      (_predict_signal m (sread σ2 ir) task_type))
    let res := impacts_loop m task_type xr means base_signal rest σ2
    (v :: res.1, res.2)

/-- Heap-accurate embedding of `compute_metric_score`: the caller's frame
lives in cell `xr` of the store `σ0`; `X.copy()` allocates, the
column-overwriting loops mutate the allocated cells in place, and every
use of the variable `X` re-reads cell `xr`.  Returns the score and the
final store. -/
def compute_metric_score_ref (s p : ℚ → ℚ) (m : Model) (task_type : String)
    (σ0 : Store) (xr : ℕ) (explainer metric : String) : ℚ × Store :=
  let feature_names := (sread σ0 xr).cols.map Prod.fst
  if feature_names.isEmpty then (0, σ0)
  else
    let base_attr := _attributions m feature_names
    let attr := effective_attr s p explainer base_attr
    let k := max 1 (min 3 feature_names.length)
    let top_idx := topIdx attr k
    let means := dfMeans (sread σ0 xr)
    let base_signal := _predict_signal m (sread σ0 xr) task_type
    let rr := slen σ0
    let σ1 := salloc σ0 (sread σ0 xr)
    let σ2 := top_idx.foldl (fun σ idx =>
      swrite σ rr (feature_names.getD idx "") (meansGet means (feature_names.getD idx ""))) σ1
    let removed_signal := _predict_signal m (sread σ2 rr) task_type
    let kr := slen σ2
    let σ3 := salloc σ2 (sread σ2 xr)
    let σ4 := feature_names.enum.foldl (fun σ ic =>
      if ic.1 ∈ top_idx then σ else swrite σ kr ic.2 (meansGet means ic.2)) σ3
    let kept_signal := _predict_signal m (sread σ4 kr) task_type
    let drop := qmean (base_signal.zipWith (fun a b => max (a - b) 0) removed_signal)
    let retain_gap := qmean (base_signal.zipWith (fun a b => |a - b|) kept_signal)
    if metric = "comprehensiveness" then (min (max drop 0) 1, σ4)
    else if metric = "sufficiency" then (min (max (1 - retain_gap) 0) 1, σ4)
    else if metric = "faithfulness_correlation" then
      let res := impacts_loop m task_type xr means base_signal feature_names σ4
      let score := if npStd s res.1 = 0 ∨ npStd s attr = 0 then 0
                   else (pearson s attr res.1 + 1) / 2
      (min (max score 0) 1, res.2)
    else (min (max (qmean attr) 0) 1, σ4)

/-! ## Sample inputs used by the witness theorems -/

/-- A model exposing importance scores, with a constant point
prediction. -/
def M0 : Model := ⟨some [3, 1], none, none, fun _ => [2]⟩

/-- A model whose importance vector is longer than the feature list. -/
def M1 : Model := ⟨some [1, 2, 3], none, none, fun _ => [0]⟩

/-- A two-column, two-row frame. -/
def X0 : DataFrame := ⟨[("a", [1, 2]), ("b", [3, 5])]⟩

/-- A one-column, one-row frame. -/
def X1 : DataFrame := ⟨[("a", [1])]⟩

/-! ## Helper lemmas -/

lemma sum_map_div (l : List ℚ) (t : ℚ) : (l.map (fun x => x / t)).sum = l.sum / t := by
  induction l with
  | nil => simp
  | cons h tl ih => simp [ih, add_div]

lemma npResize_length (v : List ℚ) (n : ℕ) : (npResize v n).length = n := by
  simp [npResize]

lemma npResize_getD (v : List ℚ) {n i : ℕ} (hi : i < n) :
    (npResize v n).getD i 0 = v.getD (i % v.length) 0 := by
  simp [npResize, List.getD_eq_getElem?_getD, List.getElem?_map, List.getElem?_range, hi]

lemma npResize_of_le (v : List ℚ) {n : ℕ} (h : n ≤ v.length) :
    npResize v n = v.take n := by
  apply List.ext_getElem?
  intro i
  by_cases hi : i < n
  · have hiv : i < v.length := lt_of_lt_of_le hi h
    rw [List.getElem?_take]
    simp [npResize, List.getElem?_map, List.getElem?_range, hi, Nat.mod_eq_of_lt hiv,
      List.getElem?_eq_getElem hiv]
  · have h1 : n ≤ i := le_of_not_lt hi
    have h2 : (npResize v n).length ≤ i := by rw [npResize_length]; exact h1
    have h3 : (v.take n).length ≤ i := by
      simpa [List.length_take] using le_trans (min_le_left _ _) h1
    rw [List.getElem?_eq_none h2, List.getElem?_eq_none h3]

lemma normalize_attr_length (values : List ℚ) (n : ℕ) (h : values.length = n) :
    (normalize_attr values n).length = n := by
  simp only [normalize_attr]
  split
  · simpa using h
  · simp

lemma normalize_attr_nonneg (values : List ℚ) (n : ℕ) :
    ∀ x ∈ normalize_attr values n, 0 ≤ x := by
  simp only [normalize_attr]
  split
  · rename_i hpos
    intro x hx
    simp only [List.mem_map] at hx
    obtain ⟨y, hy, rfl⟩ := hx
    obtain ⟨z, _, rfl⟩ := hy
    exact div_nonneg (abs_nonneg z) (le_of_lt hpos)
  · intro x hx
    rw [List.eq_of_mem_replicate hx]
    positivity

lemma normalize_attr_sum (values : List ℚ) {n : ℕ} (hn : n ≠ 0) :
    (normalize_attr values n).sum = 1 := by
  simp only [normalize_attr]
  split
  · rename_i hpos
    rw [sum_map_div]
    exact div_self (ne_of_gt hpos)
  · rw [List.sum_replicate, nsmul_eq_mul, mul_one_div,
      div_self (Nat.cast_ne_zero.mpr hn)]

lemma attributions_eq_normalize (m : Model) (names : List String) :
    _attributions m names
      = normalize_attr
          (if (raw_values m names).length ≠ names.length
           then npResize (raw_values m names) names.length
           else raw_values m names) names.length := rfl

lemma attributions_nonneg (m : Model) (names : List String) :
    ∀ x ∈ _attributions m names, 0 ≤ x := by
  rw [attributions_eq_normalize]
  exact normalize_attr_nonneg _ _

lemma attributions_sum (m : Model) {names : List String} (h : names ≠ []) :
    (_attributions m names).sum = 1 := by
  rw [attributions_eq_normalize]
  exact normalize_attr_sum _ (List.length_pos.mpr h).ne'

lemma attributions_length (m : Model) (names : List String) :
    (_attributions m names).length = names.length := by
  rw [attributions_eq_normalize]
  apply normalize_attr_length
  split
  · exact npResize_length _ _
  · rename_i h
    exact not_ne_iff.mp h

/-! ## Claim theorems -/

/-- C1: for every trained model with a prediction capability, every task
type, every feature matrix with at least one row, every explainer
identifier and every metric identifier, `compute_metric_score` returns a
value `v` with `0 ≤ v ≤ 1`. -/
theorem score_in_unit_interval (s p : ℚ → ℚ) (m : Model) (task_type : String)
    (X : DataFrame) (explainer metric : String) (hr : 0 < dfRows X) :
    0 ≤ compute_metric_score s p m task_type X explainer metric
      ∧ compute_metric_score s p m task_type X explainer metric ≤ 1 := by
  simp only [compute_metric_score]
  split
  · exact ⟨le_refl 0, zero_le_one⟩
  · exact ⟨le_min (le_max_right _ _) zero_le_one, min_le_right _ _⟩

theorem score_in_unit_interval_witness :
    0 < dfRows X0
      ∧ (0 ≤ compute_metric_score id id M0 "regression" X0 "shap" "comprehensiveness"
          ∧ compute_metric_score id id M0 "regression" X0 "shap" "comprehensiveness" ≤ 1) :=
  ⟨by decide, score_in_unit_interval id id M0 "regression" X0 "shap" "comprehensiveness"
    (by decide)⟩

/-- C2: for every model and every non-empty feature-name list, the
attribution vector returned by `_attributions` has every entry
nonnegative and entries summing to exactly 1, on all derivation paths
(importance scores, coefficients, uniform fallback). -/
theorem attributions_distribution (m : Model) (names : List String) (h : names ≠ []) :
    (∀ x ∈ _attributions m names, 0 ≤ x) ∧ (_attributions m names).sum = 1 :=
  ⟨attributions_nonneg m names, attributions_sum m h⟩

theorem attributions_distribution_witness :
    (["a", "b"] ≠ ([] : List String))
      ∧ ((∀ x ∈ _attributions M0 ["a", "b"], 0 ≤ x) ∧ (_attributions M0 ["a", "b"]).sum = 1) :=
  ⟨by decide, attributions_distribution M0 ["a", "b"] (by decide)⟩

/-- C3: on a feature matrix with zero columns, `compute_metric_score`
returns exactly 0 for every model, task type, explainer identifier and
metric identifier, independently of the model. -/
theorem zero_features_score_zero (s p : ℚ → ℚ) (m : Model) (task_type explainer metric : String) :
    compute_metric_score s p m task_type ⟨[]⟩ explainer metric = 0 := by
  simp [compute_metric_score]

attribute [local semireducible] Rat.mul Rat.inv Rat.add Rat.sub in
/-- C4: on the five-way-tied attribution vector `[0.2, 0.2, 0.2, 0.2,
0.2]` the selector has `k = 3` and picks exactly the indices `[4, 3, 2]`:
under the stable-ascending-sort-then-reverse rule the larger original
index wins among ties. -/
theorem topk_tie_break :
    max 1 (min 3 5) = 3 ∧ topIdx (List.replicate 5 (1/5 : ℚ)) 3 = [4, 3, 2] := by
  decide

/-- C5: in `_attributions`, a raw vector whose length differs from the
feature count is resized by `np.resize` before normalization; the resize
truncates to the first `n` values when the vector is at least as long,
and otherwise extends it by cyclically repeating the existing values. -/
theorem resize_truncate_cycle (m : Model) (names : List String)
    (hne : (raw_values m names).length ≠ names.length) :
    _attributions m names
        = normalize_attr (npResize (raw_values m names) names.length) names.length
      ∧ (names.length ≤ (raw_values m names).length →
          npResize (raw_values m names) names.length
            = (raw_values m names).take names.length)
      ∧ ∀ i < names.length,
          (npResize (raw_values m names) names.length).getD i 0
            = (raw_values m names).getD (i % (raw_values m names).length) 0 := by
  refine ⟨?_, fun h => npResize_of_le _ h, fun i hi => npResize_getD _ hi⟩
  rw [attributions_eq_normalize, if_pos hne]

theorem resize_truncate_cycle_witness :
    ((raw_values M1 ["a", "b"]).length ≠ ["a", "b"].length)
      ∧ (_attributions M1 ["a", "b"]
            = normalize_attr (npResize (raw_values M1 ["a", "b"]) 2) 2
          ∧ (2 ≤ (raw_values M1 ["a", "b"]).length →
              npResize (raw_values M1 ["a", "b"]) 2 = (raw_values M1 ["a", "b"]).take 2)
          ∧ ∀ i < 2,
              (npResize (raw_values M1 ["a", "b"]) 2).getD i 0
                = (raw_values M1 ["a", "b"]).getD (i % (raw_values M1 ["a", "b"]).length) 0) :=
  ⟨by decide, resize_truncate_cycle M1 ["a", "b"] (by decide)⟩

lemma effective_attr_of_sum_one (s p : ℚ → ℚ) {e : String} (he1 : e ≠ "lime")
    (he2 : e ≠ "treeshap") {base : List ℚ} (hsum : base.sum = 1) :
    effective_attr s p e base = base := by
  simp [effective_attr, he1, he2, hsum]

/-- C8: for explainer `"shap"` and for every identifier other than
`"lime"` and `"treeshap"`, the effective attribution vector equals
`_attributions`' output exactly: the identity transform followed by
renormalization changes nothing since that output already sums to 1. -/
theorem shap_identity_transform (s p : ℚ → ℚ) (m : Model) (names : List String)
    (h : names ≠ []) (e : String)
    (he : e = "shap" ∨ (e ≠ "lime" ∧ e ≠ "treeshap")) :
    effective_attr s p e (_attributions m names) = _attributions m names := by
  have hsum := attributions_sum m h
  rcases he with rfl | ⟨he1, he2⟩
  · exact effective_attr_of_sum_one s p (by decide) (by decide) hsum
  · exact effective_attr_of_sum_one s p he1 he2 hsum

theorem shap_identity_transform_witness :
    ((["a", "b"] : List String) ≠ []
        ∧ (("unknown" : String) = "shap"
            ∨ (("unknown" : String) ≠ "lime" ∧ ("unknown" : String) ≠ "treeshap")))
      ∧ effective_attr id id "unknown" (_attributions M0 ["a", "b"])
          = _attributions M0 ["a", "b"] :=
  ⟨⟨by decide, Or.inr ⟨by decide, by decide⟩⟩,
    shap_identity_transform id id M0 ["a", "b"] (by decide) "unknown"
      (Or.inr ⟨by decide, by decide⟩)⟩

lemma sum_pos_of_mem_pos {l : List ℚ} (h0 : ∀ x ∈ l, 0 ≤ x) {x : ℚ}
    (hx : x ∈ l) (hxpos : 0 < x) : 0 < l.sum := by
  induction l with
  | nil => simp at hx
  | cons a t ih =>
    rcases List.mem_cons.mp hx with rfl | hmem
    · have ht : 0 ≤ t.sum := List.sum_nonneg (fun y hy => h0 y (List.mem_cons_of_mem _ hy))
      simpa using add_pos_of_pos_of_nonneg hxpos ht
    · have ha : 0 ≤ a := h0 a (List.mem_cons_self _ _)
      have ht : 0 < t.sum := ih (fun y hy => h0 y (List.mem_cons_of_mem _ hy)) hmem
      simpa using add_pos_of_nonneg_of_pos ha ht

lemma sum_nonpos_of_forall {l : List ℚ} (h : ∀ x ∈ l, x ≤ 0) : l.sum ≤ 0 := by
  induction l with
  | nil => simp
  | cons a t ih =>
    have ha : a ≤ 0 := h a (List.mem_cons_self _ _)
    have ht : t.sum ≤ 0 := ih (fun y hy => h y (List.mem_cons_of_mem _ hy))
    simpa using add_nonpos ha ht

lemma exists_pos_of_sum_one {l : List ℚ} (h1 : l.sum = 1) : ∃ x ∈ l, 0 < x := by
  by_contra hc
  push_neg at hc
  have h := sum_nonpos_of_forall hc
  rw [h1] at h
  exact absurd h (by norm_num)

lemma effective_attr_length (s p : ℚ → ℚ) (e : String) (base : List ℚ) :
    (effective_attr s p e base).length = base.length := by
  simp only [effective_attr]
  split_ifs <;> simp

lemma effective_attr_sum_one (s p : ℚ → ℚ)
    (hs0 : ∀ x, 0 ≤ x → 0 ≤ s x) (hs1 : ∀ x, 0 < x → 0 < s x)
    (hp0 : ∀ x, 0 ≤ x → 0 ≤ p x) (hp1 : ∀ x, 0 < x → 0 < p x)
    (e : String) {base : List ℚ} (h0 : ∀ x ∈ base, 0 ≤ x) (h1 : base.sum = 1) :
    (effective_attr s p e base).sum = 1 := by
  obtain ⟨w, hw, hwpos⟩ := exists_pos_of_sum_one h1
  simp only [effective_attr]
  split_ifs with hl ht
  · have h0' : ∀ x ∈ base.map s, 0 ≤ x := by
      intro x hx
      obtain ⟨y, hy, rfl⟩ := List.mem_map.mp hx
      exact hs0 y (h0 y hy)
    have hpos : 0 < (base.map s).sum :=
      sum_pos_of_mem_pos h0' (List.mem_map_of_mem s hw) (hs1 w hwpos)
    rw [sum_map_div]
    exact div_self (ne_of_gt hpos)
  · have h0' : ∀ x ∈ base.map p, 0 ≤ x := by
      intro x hx
      obtain ⟨y, hy, rfl⟩ := List.mem_map.mp hx
      exact hp0 y (h0 y hy)
    have hpos : 0 < (base.map p).sum :=
      sum_pos_of_mem_pos h0' (List.mem_map_of_mem p hw) (hp1 w hwpos)
    rw [sum_map_div]
    exact div_self (ne_of_gt hpos)
  · rw [sum_map_div, h1]
    norm_num

/-- C10: for every model, task type, matrix with at least one column and
every explainer, an unrecognized metric identifier makes
`compute_metric_score` return exactly `1/n` where `n` is the column
count: the fallback is the mean of the effective attribution vector,
which always sums to 1 (the hypotheses on `s` and `p` are the
sign-preservation facts of the real square root and power-1.25
functions). -/
theorem default_metric_mean (s p : ℚ → ℚ)
    (hs0 : ∀ x, 0 ≤ x → 0 ≤ s x) (hs1 : ∀ x, 0 < x → 0 < s x)
    (hp0 : ∀ x, 0 ≤ x → 0 ≤ p x) (hp1 : ∀ x, 0 < x → 0 < p x)
    (m : Model) (task_type : String) (X : DataFrame) (explainer metric : String)
    (hcols : X.cols ≠ [])
    (hm1 : metric ≠ "comprehensiveness") (hm2 : metric ≠ "sufficiency")
    (hm3 : metric ≠ "faithfulness_correlation") :
    compute_metric_score s p m task_type X explainer metric
      = 1 / (X.cols.length : ℚ) := by
  have hnames : X.cols.map Prod.fst ≠ [] := by
    simpa using hcols
  have hnpos : 0 < X.cols.length := List.length_pos.mpr hcols
  have hsum : (effective_attr s p explainer (_attributions m (X.cols.map Prod.fst))).sum = 1 :=
    effective_attr_sum_one s p hs0 hs1 hp0 hp1 explainer
      (attributions_nonneg m _) (attributions_sum m hnames)
  have hlen : (effective_attr s p explainer (_attributions m (X.cols.map Prod.fst))).length
      = X.cols.length := by
    rw [effective_attr_length, attributions_length, List.length_map]
  have hq : qmean (effective_attr s p explainer (_attributions m (X.cols.map Prod.fst)))
      = 1 / (X.cols.length : ℚ) := by
    rw [qmean, hsum, hlen]
  simp only [compute_metric_score, List.isEmpty_eq_true, hnames, if_false,
    if_neg hm1, if_neg hm2, if_neg hm3, hq]
  rw [max_eq_left, min_eq_left]
  · rw [div_le_one (by exact_mod_cast hnpos)]
    exact_mod_cast hnpos
  · positivity

theorem default_metric_mean_witness :
    ((∀ x, 0 ≤ x → 0 ≤ id x) ∧ (X0.cols ≠ [])
        ∧ ("accuracy" : String) ≠ "comprehensiveness")
      ∧ compute_metric_score id id M0 "regression" X0 "shap" "accuracy"
          = 1 / ((X0.cols.length : ℚ)) :=
  ⟨⟨fun x h => h, by decide, by decide⟩,
    default_metric_mean id id (fun x h => h) (fun x h => h) (fun x h => h) (fun x h => h)
      M0 "regression" X0 "shap" "accuracy" (by decide) (by decide) (by decide) (by decide)⟩

lemma cols_ne_nil_of_rows {X : DataFrame} (hr : 0 < dfRows X) : X.cols ≠ [] := by
  intro h
  rw [dfRows, h] at hr
  simp at hr

/-- C6: for `"faithfulness_correlation"`, if the per-feature impact
vector has zero standard deviation (in particular when the signal is
constant under every perturbation, so every impact is 0) or the effective
attribution vector has zero standard deviation, the score is exactly 0 —
never undefined (the hypothesis `s 0 = 0` is the fact that the square
root vanishes at 0, so zero variance means zero `np.std`). -/
theorem faithfulness_degenerate_zero (s p : ℚ → ℚ) (hs : s 0 = 0) (m : Model)
    (task_type : String) (X : DataFrame) (explainer : String) (hr : 0 < dfRows X)
    (hdeg : variance (feature_impacts m task_type X) = 0
      ∨ variance (effective_attr s p explainer (_attributions m (X.cols.map Prod.fst))) = 0) :
    compute_metric_score s p m task_type X explainer "faithfulness_correlation" = 0 := by
  have hnames : X.cols.map Prod.fst ≠ [] := by
    simpa using cols_ne_nil_of_rows hr
  have hguard : npStd s (feature_impacts m task_type X) = 0
      ∨ npStd s (effective_attr s p explainer (_attributions m (X.cols.map Prod.fst))) = 0 := by
    rcases hdeg with h | h
    · exact Or.inl (by rw [npStd, h, hs])
    · exact Or.inr (by rw [npStd, h, hs])
  simp only [compute_metric_score, List.isEmpty_eq_true, hnames, if_false]
  rw [if_neg (by decide : ("faithfulness_correlation" : String) ≠ "comprehensiveness"),
    if_neg (by decide : ("faithfulness_correlation" : String) ≠ "sufficiency")]
  rw [if_pos trivial, if_pos hguard]
  simp

attribute [local semireducible] Rat.mul Rat.inv Rat.add Rat.sub in
theorem faithfulness_degenerate_zero_witness :
    ((id (0 : ℚ) = 0) ∧ 0 < dfRows X1
        ∧ variance (feature_impacts M0 "regression" X1) = 0)
      ∧ compute_metric_score id id M0 "regression" X1 "shap" "faithfulness_correlation" = 0 :=
  ⟨⟨rfl, by decide, by decide⟩,
    faithfulness_degenerate_zero id id rfl M0 "regression" X1 "shap" (by decide)
      (Or.inl (by decide))⟩

lemma insertIdx_perm (v : List ℚ) (i : ℕ) (l : List ℕ) :
    List.Perm (insertIdx v i l) (i :: l) := by
  induction l with
  | nil => exact List.Perm.refl _
  | cons j rest ih =>
    rw [insertIdx]
    split
    · exact List.Perm.refl _
    · exact (ih.cons j).trans (List.Perm.swap i j rest)

lemma foldl_insertIdx_perm (v : List ℚ) :
    ∀ (l : List ℕ) (acc : List ℕ),
      List.Perm (l.foldl (fun acc i => insertIdx v i acc) acc) (l ++ acc) := by
  intro l
  induction l with
  | nil => intro acc; exact List.Perm.refl _
  | cons i t ih =>
    intro acc
    rw [List.foldl_cons]
    refine (ih (insertIdx v i acc)).trans ?_
    exact (List.Perm.append_left t (insertIdx_perm v i acc)).trans List.perm_middle

lemma argsort_perm (v : List ℚ) : List.Perm (argsort v) (List.range v.length) := by
  simpa using foldl_insertIdx_perm v (List.range v.length) []

lemma argsort_length (v : List ℚ) : (argsort v).length = v.length := by
  rw [(argsort_perm v).length_eq, List.length_range]

lemma mem_argsort (v : List ℚ) {i : ℕ} (hi : i < v.length) : i ∈ argsort v :=
  ((argsort_perm v).mem_iff).mpr (List.mem_range.mpr hi)

lemma mem_topIdx_all (attr : List ℚ) {k i : ℕ} (hk : attr.length ≤ k)
    (hi : i < attr.length) : i ∈ topIdx attr k := by
  rw [topIdx, List.take_of_length_le (by rw [List.length_reverse, argsort_length]; exact hk)]
  exact List.mem_reverse.mpr (mem_argsort attr hi)

lemma foldl_skip_of_mem {α : Type} (P : α → Prop) [DecidablePred P]
    (g : DataFrame → α → DataFrame) :
    ∀ (l : List α) (X : DataFrame), (∀ q ∈ l, P q) →
      l.foldl (fun d q => if P q then d else g d q) X = X := by
  intro l
  induction l with
  | nil => intro X _; rfl
  | cons a t ih =>
    intro X h
    rw [List.foldl_cons, if_pos (h a (List.mem_cons_self _ _))]
    exact ih X (fun q hq => h q (List.mem_cons_of_mem _ hq))

lemma qmean_zipWith_self_abs (l : List ℚ) :
    qmean (l.zipWith (fun a b => |a - b|) l) = 0 := by
  rw [List.zipWith_same]
  have h : (l.map fun a => |a - a|).sum = 0 := by
    induction l with
    | nil => simp
    | cons x t ih => simp [ih]
  rw [qmean, h, zero_div]

/-- C7: for every deterministic model and every feature matrix with
between 1 and 3 columns, the selected top-k set covers the full feature
index set, the kept matrix equals the original matrix, the kept signal
equals the base signal, and the `"sufficiency"` metric returns exactly 1. -/
theorem sufficiency_full_topk (s p : ℚ → ℚ) (m : Model) (task_type : String)
    (X : DataFrame) (explainer : String) (hr : 0 < dfRows X)
    (h1 : 1 ≤ X.cols.length) (h3 : X.cols.length ≤ 3) :
    (∀ i < X.cols.length,
        i ∈ topIdx (effective_attr s p explainer (_attributions m (X.cols.map Prod.fst)))
          (max 1 (min 3 (X.cols.map Prod.fst).length)))
      ∧ compute_metric_score s p m task_type X explainer "sufficiency" = 1 := by
  have hnlen : (X.cols.map Prod.fst).length = X.cols.length := List.length_map _ _
  have hcols : X.cols ≠ [] := List.length_pos.mp (by omega)
  have hattrlen :
      (effective_attr s p explainer (_attributions m (X.cols.map Prod.fst))).length
        = X.cols.length := by
    rw [effective_attr_length, attributions_length, hnlen]
  have htop : ∀ i < X.cols.length,
      i ∈ topIdx (effective_attr s p explainer (_attributions m (X.cols.map Prod.fst)))
        (max 1 (min 3 (X.cols.map Prod.fst).length)) := by
    intro i hi
    apply mem_topIdx_all
    · rw [hattrlen, hnlen]
      omega
    · rw [hattrlen]
      exact hi
  refine ⟨htop, ?_⟩
  have hkept : (List.map Prod.fst X.cols).enum.foldl
      (fun d ic =>
        if ic.1 ∈ topIdx (effective_attr s p explainer (_attributions m (List.map Prod.fst X.cols)))
            (max 1 (min 3 (List.map Prod.fst X.cols).length)) then d
        else dfSetCol d ic.2 (meansGet (dfMeans X) ic.2)) X = X := by
    apply foldl_skip_of_mem
    intro q hq
    rw [List.enum_eq_zip_range] at hq
    have hqmem : q.1 ∈ List.range (List.map Prod.fst X.cols).length :=
      (List.of_mem_zip (by simpa using hq)).1
    have hqlt : q.1 < X.cols.length := by
      have := List.mem_range.mp hqmem
      omega
    exact htop q.1 hqlt
  simp only [compute_metric_score, List.isEmpty_eq_true]
  rw [if_neg (by simpa using hcols)]
  rw [if_neg (by decide : ("sufficiency" : String) ≠ "comprehensiveness")]
  rw [if_pos trivial]
  rw [hkept, qmean_zipWith_self_abs]
  norm_num

theorem sufficiency_full_topk_witness :
    (0 < dfRows X0 ∧ 1 ≤ X0.cols.length ∧ X0.cols.length ≤ 3)
      ∧ ((∀ i < X0.cols.length,
            i ∈ topIdx (effective_attr id id "shap" (_attributions M0 (X0.cols.map Prod.fst)))
              (max 1 (min 3 (X0.cols.map Prod.fst).length)))
          ∧ compute_metric_score id id M0 "regression" X0 "shap" "sufficiency" = 1) :=
  ⟨⟨by decide, by decide, by decide⟩,
    sufficiency_full_topk id id M0 "regression" X0 "shap" (by decide) (by decide) (by decide)⟩

lemma sread_append_lt {σ : Store} {r : ℕ} (d : DataFrame) (h : r < σ.length) :
    sread (σ ++ [d]) r = sread σ r := by
  rw [sread, sread, List.getD_append]
  exact h

lemma sread_append_self (σ : Store) (d : DataFrame) : sread (σ ++ [d]) σ.length = d := by
  rw [sread, List.getD_eq_getElem?_getD, List.getElem?_append_right (le_refl _)]
  simp

lemma sread_out_of_range {σ : Store} {r : ℕ} (h : σ.length ≤ r) : sread σ r = ⟨[]⟩ := by
  rw [sread, List.getD_eq_default]
  exact h

lemma lt_of_sread_ne {σ : Store} {r : ℕ} (h : sread σ r ≠ ⟨[]⟩) : r < σ.length := by
  by_contra hc
  exact h (sread_out_of_range (le_of_not_lt hc))

lemma swrite_length (σ : Store) (r : ℕ) (c : String) (q : ℚ) :
    (swrite σ r c q).length = σ.length := by
  rw [swrite, List.length_set]

lemma sread_swrite_ne (σ : Store) {r r' : ℕ} (c : String) (q : ℚ) (h : r' ≠ r) :
    sread (swrite σ r c q) r' = sread σ r' := by
  rw [swrite, sread, sread, List.getD_eq_getElem?_getD, List.getD_eq_getElem?_getD,
    List.getElem?_set_ne (by omega)]
  simp [sread, List.getD_eq_getElem?_getD]

lemma sread_swrite_eq (σ : Store) {r : ℕ} (c : String) (q : ℚ) (h : r < σ.length) :
    sread (swrite σ r c q) r = dfSetCol (sread σ r) c q := by
  rw [swrite, sread, sread, List.getD_eq_getElem?_getD, List.getD_eq_getElem?_getD,
    List.getElem?_set_self (by omega)]
  rw [List.getElem?_eq_getElem h]
  simp [List.getD_eq_getElem?_getD, List.getElem?_eq_getElem h]

lemma salloc_length (σ : Store) (d : DataFrame) : (salloc σ d).length = σ.length + 1 := by
  simp [salloc]

lemma sread_salloc_self (σ : Store) (d : DataFrame) : sread (salloc σ d) (slen σ) = d :=
  sread_append_self σ d

lemma sread_salloc_lt {σ : Store} {r : ℕ} (d : DataFrame) (h : r < σ.length) :
    sread (salloc σ d) r = sread σ r :=
  sread_append_lt d h

lemma foldl_store_sim {α : Type} (stepS : Store → α → Store)
    (stepD : DataFrame → α → DataFrame) (rr : ℕ)
    (hlen : ∀ σ x, (stepS σ x).length = σ.length)
    (hne : ∀ σ x q, q ≠ rr → sread (stepS σ x) q = sread σ q)
    (heq : ∀ σ x, rr < σ.length → sread (stepS σ x) rr = stepD (sread σ rr) x) :
    ∀ (l : List α) (σ : Store), rr < σ.length →
      (l.foldl stepS σ).length = σ.length
        ∧ (∀ q, q ≠ rr → sread (l.foldl stepS σ) q = sread σ q)
        ∧ sread (l.foldl stepS σ) rr = l.foldl stepD (sread σ rr) := by
  intro l
  induction l with
  | nil => intro σ _; exact ⟨rfl, fun q _ => rfl, rfl⟩
  | cons a t ih =>
    intro σ h
    have h' : rr < (stepS σ a).length := by rw [hlen]; exact h
    obtain ⟨l1, l2, l3⟩ := ih (stepS σ a) h'
    rw [List.foldl_cons, List.foldl_cons]
    refine ⟨by rw [l1, hlen], fun q hq => by rw [l2 q hq, hne σ a q hq], ?_⟩
    rw [l3, heq σ a h]

lemma impacts_loop_spec (m : Model) (task_type : String) (xr : ℕ)
    (means : List (String × ℚ)) (bs : List ℚ) :
    ∀ (names : List String) (σ : Store), xr < σ.length →
      (impacts_loop m task_type xr means bs names σ).1
          = names.map (fun col =>
              qmean (bs.zipWith (fun a b => |a - b|)
                (_predict_signal m (dfSetCol (sread σ xr) col (meansGet means col)) task_type)))
        ∧ sread (impacts_loop m task_type xr means bs names σ).2 xr = sread σ xr := by
  intro names
  induction names with
  | nil => intro σ _; exact ⟨rfl, rfl⟩
  | cons col rest ih =>
    intro σ h
    have hxr_ne : xr ≠ slen σ := by
      rw [slen]
      omega
    have h1 : sread (salloc σ (sread σ xr)) (slen σ) = sread σ xr := sread_salloc_self σ _
    have h1x : sread (salloc σ (sread σ xr)) xr = sread σ xr := sread_salloc_lt _ h
    have h2i : sread (swrite (salloc σ (sread σ xr)) (slen σ) col (meansGet means col)) (slen σ)
        = dfSetCol (sread σ xr) col (meansGet means col) := by
      rw [sread_swrite_eq _ _ _ (by rw [salloc_length, slen]; omega), h1]
    have h2x : sread (swrite (salloc σ (sread σ xr)) (slen σ) col (meansGet means col)) xr
        = sread σ xr := by
      rw [sread_swrite_ne _ _ _ hxr_ne, h1x]
    have hlen2 : xr < (swrite (salloc σ (sread σ xr)) (slen σ) col (meansGet means col)).length := by
      rw [swrite_length, salloc_length]
      omega
    obtain ⟨ih1, ih2⟩ := ih _ hlen2
    simp only [impacts_loop]
    refine ⟨?_, ?_⟩
    · rw [List.map_cons, h2i, ih1]
      simp only [h2x]
    · rw [ih2, h2x]

set_option maxHeartbeats 2000000 in
/-- C9: the engine never mutates its inputs.  In the heap-accurate
embedding `compute_metric_score_ref`, where the caller's frame lives in
cell `xr` and the removed/kept/single-feature-ablated frames are
allocated copies mutated in place, the caller's cell holds exactly its
original frame after the call, and the returned score coincides with the
pure function of the original frame (the model, a plain value, is only
ever read). -/
theorem engine_no_mutation (s p : ℚ → ℚ) (m : Model) (task_type : String)
    (σ0 : Store) (xr : ℕ) (explainer metric : String) :
    sread (compute_metric_score_ref s p m task_type σ0 xr explainer metric).2 xr = sread σ0 xr
      ∧ (compute_metric_score_ref s p m task_type σ0 xr explainer metric).1
        = compute_metric_score s p m task_type (sread σ0 xr) explainer metric := by
  by_cases hE : ((sread σ0 xr).cols.map Prod.fst).isEmpty = true
  · simp [compute_metric_score_ref, compute_metric_score, hE]
  · have hne2 : sread σ0 xr ≠ ⟨[]⟩ := by
      intro h
      rw [h] at hE
      exact hE rfl
    have hxr : xr < σ0.length := lt_of_sread_ne hne2
    have hE2 : ((sread σ0 xr).cols.map Prod.fst).isEmpty = false := by
      simpa using hE
    simp only [compute_metric_score_ref, compute_metric_score, hE2, Bool.false_eq_true, if_false]
    set X := sread σ0 xr with hX
    set fn := List.map Prod.fst X.cols with hfn
    set A := effective_attr s p explainer (_attributions m fn) with hA
    set tI := topIdx A (max 1 (min 3 fn.length)) with htI
    set mn := dfMeans X with hmn
    set bs := _predict_signal m X task_type with hbs
    set σ1 := salloc σ0 X with hσ1
    set σ2 := List.foldl
      (fun σ idx => swrite σ (slen σ0) (fn.getD idx "") (meansGet mn (fn.getD idx ""))) σ1 tI
      with hσ2
    have hsl0 : slen σ0 = σ0.length := rfl
    have hl1 : σ1.length = σ0.length + 1 := by rw [hσ1, salloc_length]
    have hr1 : sread σ1 (slen σ0) = X := by
      rw [hσ1]
      exact sread_salloc_self σ0 X
    have hx1 : sread σ1 xr = X := by
      rw [hσ1, hX]
      exact sread_salloc_lt _ hxr
    obtain ⟨hl2, hq2, hr2⟩ := foldl_store_sim
      (fun σ idx => swrite σ (slen σ0) (fn.getD idx "") (meansGet mn (fn.getD idx "")))
      (fun d idx => dfSetCol d (fn.getD idx "") (meansGet mn (fn.getD idx "")))
      (slen σ0)
      (fun σ x => swrite_length σ (slen σ0) _ _)
      (fun σ x q hq => sread_swrite_ne σ _ _ hq)
      (fun σ x h => sread_swrite_eq σ _ _ h)
      tI σ1 (by rw [hsl0]; omega)
    rw [← hσ2] at hl2 hq2 hr2
    have hl2' : σ2.length = σ0.length + 1 := by rw [hl2, hl1]
    have hx2 : sread σ2 xr = X := by
      rw [hq2 xr (by rw [hsl0]; omega), hx1]
    have hr2' : sread σ2 (slen σ0)
        = List.foldl (fun d idx => dfSetCol d (fn.getD idx "") (meansGet mn (fn.getD idx ""))) X tI := by
      rw [hr2, hr1]
    rw [hx2]
    set σ3 := salloc σ2 X with hσ3
    have hsl2 : slen σ2 = σ2.length := rfl
    have hl3 : σ3.length = σ0.length + 2 := by rw [hσ3, salloc_length, hl2']
    have hk3 : sread σ3 (slen σ2) = X := by
      rw [hσ3]
      exact sread_salloc_self σ2 X
    have hx3 : sread σ3 xr = X := by
      rw [hσ3, sread_salloc_lt X (show xr < σ2.length by omega)]
      exact hx2
    set σ4 := List.foldl
      (fun σ ic => if ic.1 ∈ tI then σ else swrite σ (slen σ2) ic.2 (meansGet mn ic.2)) σ3 fn.enum
      with hσ4
    have hKlen : ∀ (σ : Store) (x : ℕ × String),
        ((fun σ ic => if ic.1 ∈ tI then σ else swrite σ (slen σ2) ic.2 (meansGet mn ic.2)) σ x).length
          = σ.length := by
      intro σ x
      by_cases hmem : x.1 ∈ tI
      · simp only [if_pos hmem]
      · simp only [if_neg hmem, swrite_length]
    have hKne : ∀ (σ : Store) (x : ℕ × String) (q : ℕ), q ≠ slen σ2 →
        sread ((fun σ ic => if ic.1 ∈ tI then σ else swrite σ (slen σ2) ic.2 (meansGet mn ic.2)) σ x) q
          = sread σ q := by
      intro σ x q hq
      by_cases hmem : x.1 ∈ tI
      · simp only [if_pos hmem]
      · simp only [if_neg hmem]
        exact sread_swrite_ne σ _ _ hq
    have hKeq : ∀ (σ : Store) (x : ℕ × String), slen σ2 < σ.length →
        sread ((fun σ ic => if ic.1 ∈ tI then σ else swrite σ (slen σ2) ic.2 (meansGet mn ic.2)) σ x)
            (slen σ2)
          = (fun d ic => if ic.1 ∈ tI then d else dfSetCol d ic.2 (meansGet mn ic.2))
              (sread σ (slen σ2)) x := by
      intro σ x h
      by_cases hmem : x.1 ∈ tI
      · simp only [if_pos hmem]
      · simp only [if_neg hmem]
        exact sread_swrite_eq σ _ _ h
    obtain ⟨hl4, hq4, hk4⟩ := foldl_store_sim
      (fun σ ic => if ic.1 ∈ tI then σ else swrite σ (slen σ2) ic.2 (meansGet mn ic.2))
      (fun d ic => if ic.1 ∈ tI then d else dfSetCol d ic.2 (meansGet mn ic.2))
      (slen σ2) hKlen hKne hKeq fn.enum σ3 (by rw [hsl2]; omega)
    rw [← hσ4] at hl4 hq4 hk4
    have hl4' : σ4.length = σ0.length + 2 := by rw [hl4, hl3]
    have hx4 : sread σ4 xr = X := by
      rw [hq4 xr (by rw [hsl2]; omega), hx3]
    have hk4' : sread σ4 (slen σ2)
        = List.foldl (fun d ic => if ic.1 ∈ tI then d else dfSetCol d ic.2 (meansGet mn ic.2)) X
            fn.enum := by
      rw [hk4, hk3]
    obtain ⟨hI1, hI2⟩ := impacts_loop_spec m task_type xr mn bs fn σ4 (by omega)
    simp only [hx4] at hI1 hI2
    have hfi : feature_impacts m task_type X
        = fn.map (fun col => qmean (bs.zipWith (fun a b => |a - b|)
            (_predict_signal m (dfSetCol X col (meansGet mn col)) task_type))) := by
      simp only [feature_impacts]
    have hI1' : (impacts_loop m task_type xr mn bs fn σ4).1 = feature_impacts m task_type X := by
      rw [hI1, hfi]
    rw [hI1', hr2', hk4']
    refine ⟨?_, ?_⟩
    · split_ifs <;> first | exact hx4 | exact hI2
    · split_ifs <;> rfl
